import Mathlib

/-!
Shallow embedding of the concurrency core of the CleanSpeechBot repository:
the voice pipeline orchestrator (`bot/services/pipeline.py`), the pending
request store and message dispatch of the voice handler
(`bot/handlers/voice_handler.py`), and the task queue manager
(`bot/utils/workers.py`), together with proofs of the specified properties.
-/

set_option maxHeartbeats 1000000
set_option linter.unusedVariables false

namespace CleanSpeechBot

/-! ## Exceptions

Exception classes raised and caught across `pipeline.py` and
`voice_handler.py`.  `voicePipelineError` stands for a direct instance of the
base class `VoicePipelineError`; the concrete subclasses get their own
constructors.  `fileNotFoundError` is the builtin raised by
`_ensure_within_tmp_dir`.  `otherException` covers every other exception
(caught by the handler's bare `except Exception`). -/
inductive Exc
  | audioConversionError
  | audioValidationError
  | transcriptionError
  | formattingError
  | voicePipelineError
  | fileNotFoundError
  | otherException
deriving DecidableEq, Repr

/-- A resolved filesystem path, modelled as its list of components. -/
abbrev FsPath := List String

/-- Python's `str.strip()` with no argument: remove leading and trailing
whitespace.  Modelled directly on the character list (ASCII whitespace, which
is what the transcripts at hand contain) so that it evaluates inside the
kernel. -/
def pyStrip (s : String) : String :=
  ⟨((s.data.dropWhile Char.isWhitespace).reverse.dropWhile Char.isWhitespace).reverse⟩

/-! ## Pipeline orchestrator (`bot/services/pipeline.py`) -/

/-- Outcomes of the collaborator calls made by the four step wrappers of
`VoicePipeline`: `audio_processor.convert_to_wav`,
`audio_processor.validate_audio`, `whisper_engine.transcribe` and
`formatting_client.format_text`.  Each wrapper (`_convert`, `_validate`,
`_transcribe`, `_format`, pipeline.py lines 135-175) catches every exception
of the underlying call alike and re-raises its own class, so a collaborator
outcome is simply success with a value, or failure (`none` / `false`). -/
structure Steps where
  convert : FsPath → Option FsPath
  validate : FsPath → Bool
  transcribe : FsPath → Option String
  format : String → Option String

/-- Result of one run of `VoicePipeline._run_pipeline`: the returned text or
the raised (classified) exception, together with the list of
`audio_processor.cleanup` invocations performed by the `finally` block, in
order. -/
structure RunResult where
  result : Except Exc String
  cleaned : List FsPath

/-- `VoicePipeline._run_pipeline` (pipeline.py lines 95-133).

* `_convert` failure raises `AudioConversionError`; `wav_path` is still
  `None`, so the `finally` block performs no cleanup.
* `_validate` failure raises `AudioValidationError`, `_transcribe` failure
  raises `TranscriptionError`; in both cases `wav_path` is set and the
  `finally` block cleans it exactly once.
* a `_format` failure (`FormattingError`, or any unexpected formatter
  exception — both `except` arms behave identically) is swallowed and the
  result falls back to `transcript.strip()`; on formatter success the result
  is `formatted_text.strip()`.  Python's `str.strip()` is modelled by
  `String.trim`. -/
def runPipeline (steps : Steps) (sourcePath : FsPath) : RunResult :=
  match steps.convert sourcePath with
  | none => { result := .error .audioConversionError, cleaned := [] }
  | some wavPath =>
    if !steps.validate wavPath then
      { result := .error .audioValidationError, cleaned := [wavPath] }
    else
      match steps.transcribe wavPath with
      | none => { result := .error .transcriptionError, cleaned := [wavPath] }
      | some transcript =>
        match steps.format transcript with
        | none => { result := .ok (pyStrip transcript), cleaned := [wavPath] }
        | some formattedText => { result := .ok (pyStrip formattedText), cleaned := [wavPath] }

/-! ## Handler-side delivery (`bot/handlers/voice_handler.py`) -/

/-- Reply sent by `_process_downloaded_audio` when the pipeline raises
`AudioConversionError` or `AudioValidationError` (voice_handler.py line 559). -/
def audioCannotProcessReply : String :=
  "Аудио-файл нельзя обработать. Попробуйте записать новое сообщение."

/-- `pipeline_error_reply` (voice_handler.py lines 546-548), sent for
`TranscriptionError`, `FormattingError`, `VoicePipelineError` and any other
exception. -/
def pipelineErrorReply : String :=
  "Не получилось обработать голосовое. Попробуйте ещё раз через пару минут."

/-- The fixed sentinel substituted when the pipeline response strips to the
empty string (voice_handler.py line 584). -/
def emptyVoiceReply : String :=
  "Похоже, голосовое пустое. Запиши сообщение ещё раз."

/-- The reply `_process_downloaded_audio` sends for a raised exception,
following its `except` clauses in source order (voice_handler.py lines
555-578): first `(AudioConversionError, AudioValidationError)`, then
`(TranscriptionError, FormattingError, VoicePipelineError)`, finally the bare
`except Exception`. -/
def errorReplyText : Exc → String
  | .audioConversionError | .audioValidationError => audioCannotProcessReply
  | .transcriptionError | .formattingError | .voicePipelineError => pipelineErrorReply
  | .fileNotFoundError | .otherException => pipelineErrorReply

/-- The text `_process_downloaded_audio` delivers to the chat, given the
outcome of `await _PIPELINE.process_voice(...)` (voice_handler.py lines
551-590).  On success the response is stripped (`(response or "").strip()`
equals `response.strip()` for a string response) and the empty-voice sentinel
is substituted when the stripped text is empty. -/
def deliveredText (outcome : Except Exc String) : String :=
  match outcome with
  | .error e => errorReplyText e
  | .ok response =>
    let text := pyStrip response
    if text = "" then emptyVoiceReply else text

/-! ## Submission phase of `process_voice` (pipeline.py lines 59-93) -/

/-- Filesystem facts consumed by `_ensure_within_tmp_dir`: how
`Path.resolve()` rewrites a path, and which resolved paths exist. -/
structure Fs where
  resolve : FsPath → FsPath
  pathExists : FsPath → Bool

/-- `VoicePipeline._ensure_within_tmp_dir` (pipeline.py lines 80-93): resolve
the path, raise `FileNotFoundError` when the resolved path does not exist,
then `path.relative_to(tmp_dir)` — which raises `ValueError`, re-raised as
`AudioValidationError`, exactly when the resolved temporary directory is not
a prefix of the resolved path. -/
def ensureWithinTmpDir (fs : Fs) (tmpDir audioPath : FsPath) : Except Exc FsPath :=
  let path := fs.resolve audioPath
  let tmp := fs.resolve tmpDir
  if !fs.pathExists path then .error .fileNotFoundError
  else if tmp.isPrefixOf path then .ok path
  else .error .audioValidationError

/-- Observable submission state of `process_voice`: the runner closures handed
to `task_queue.enqueue` (identified by their validated source path) and the
number of result futures created with `loop.create_future()`. -/
structure SubmitState where
  queued : List FsPath
  futuresCreated : Nat
deriving DecidableEq, Repr

/-- The submission phase of `VoicePipeline.process_voice` (pipeline.py lines
59-78): `_ensure_within_tmp_dir` runs first; only if it returns normally is
the result future created and the runner enqueued.  Returns the validated
path (with which the runner later executes `_run_pipeline`) or the raised
exception, together with the updated submission state. -/
def processVoiceSubmit (fs : Fs) (tmpDir : FsPath) (st : SubmitState) (audioPath : FsPath) :
    Except Exc FsPath × SubmitState :=
  match ensureWithinTmpDir fs tmpDir audioPath with
  | .error e => (.error e, st)
  | .ok validatedPath =>
    (.ok validatedPath,
     { queued := st.queued ++ [validatedPath],
       futuresCreated := st.futuresCreated + 1 })

/-! ## Pending request store (`bot/handlers/voice_handler.py`)

`_PENDING_REQUESTS` is a Python dict from composite string keys to mutable
`PendingVoiceRequest` dataclass instances, guarded by `_PENDING_LOCK`.  It is
modelled as an insertion-ordered association list (exactly a dict's
semantics), paired with a ghost counter that stamps every stored dataclass
instance with a unique identity: Python mutates the same object in place on
the Pending → Processing transition, while a colliding dict assignment binds
the key to a brand-new object. -/

/-- `PendingVoiceRequest` dataclass (voice_handler.py lines 39-48).
`created_at` holds the `time.time()` timestamp, modelled as an integer number
of seconds; comparisons against the TTL are unaffected by the float/int
difference. -/
structure PendingVoiceRequest where
  chat_id : Int
  message_id : Int
  file_id : String
  mime_type : Option String
  extension_hint : Option String
  log_label : String
  created_at : Int
  in_progress : Bool := false
deriving DecidableEq, Repr

/-- `_REQUEST_TTL_SECONDS = 900` (voice_handler.py line 53). -/
def requestTtlSeconds : Int := 900

/-- `_make_request_key` (voice_handler.py lines 335-336). -/
def makeRequestKey (chatId messageId : Int) : String :=
  toString chatId ++ ":" ++ toString messageId

/-- One slot of the `_PENDING_REQUESTS` dict: the ghost object identity `uid`
plus the dataclass value. -/
structure StoreEntry where
  uid : Nat
  req : PendingVoiceRequest
deriving DecidableEq, Repr

/-- The association list holding the dict's bindings, in insertion order. -/
abbrev Entries := List (String × StoreEntry)

/-- State of the store: the dict plus the ghost uid supply. -/
structure StoreState where
  entries : Entries
  nextUid : Nat
deriving DecidableEq, Repr

/-- `_PENDING_REQUESTS.get(key)`: the value bound to `key`, if any. -/
def lookupKey : Entries → String → Option StoreEntry
  | [], _ => none
  | kv :: rest, key => if kv.1 = key then some kv.2 else lookupKey rest key

/-- `_PENDING_REQUESTS.pop(key, None)` on the binding list: remove the
binding of `key` (a dict holds at most one; on the nodup lists maintained by
the store, removing the first occurrence removes the only one). -/
def popKey : Entries → String → Entries
  | [], _ => []
  | kv :: rest, key => if kv.1 = key then rest else kv :: popKey rest key

/-- `_PENDING_REQUESTS[key] = v`: dict assignment — replace the value at an
existing binding in place, else append a new binding. -/
def dictInsert : Entries → String → StoreEntry → Entries
  | [], key, v => [(key, v)]
  | kv :: rest, key, v =>
    if kv.1 = key then (key, v) :: rest else kv :: dictInsert rest key v

/-- The age test of the sweep's list comprehension
(voice_handler.py lines 341-345): `now - request.created_at > _REQUEST_TTL_SECONDS`.
Note it tests only the age, never `in_progress`. -/
def isExpired (now : Int) (r : PendingVoiceRequest) : Bool :=
  decide (now - r.created_at > requestTtlSeconds)

/-- `_cleanup_expired_requests_locked` (voice_handler.py lines 339-354):
collect the keys of every entry whose age exceeds the TTL, then pop each
collected key. -/
def cleanupEntries (now : Int) (l : Entries) : Entries :=
  let expiredKeys := (l.filter fun kv => isExpired now kv.2.req).map Prod.fst
  expiredKeys.foldl popKey l

/-- `request.in_progress = True`: the in-place mutation of the dataclass
object (same ghost identity). -/
def markTrue (e : StoreEntry) : StoreEntry :=
  { e with req := { e.req with in_progress := true } }

/-- Apply `request.in_progress = True` to the object bound at `key`. -/
def setInProgress (l : Entries) (key : String) : Entries :=
  l.map fun kv => if kv.1 = key then (kv.1, markTrue kv.2) else kv

/-- Outcome of the locked test-and-set section of `handle_summary_callback`
(voice_handler.py lines 438-455). -/
inductive MarkOutcome
  | missing
  | alreadyRunning
  | started
deriving DecidableEq, Repr

/-- The locked section of `handle_summary_callback`
(voice_handler.py lines 438-455): sweep expired entries, look the key up;
absent → answer "not found" and stop; `in_progress` → answer "already
running" and stop; otherwise set `in_progress = True` and proceed. -/
def markProcessing (now : Int) (l : Entries) (key : String) : MarkOutcome × Entries :=
  let l1 := cleanupEntries now l
  match lookupKey l1 key with
  | none => (.missing, l1)
  | some e =>
    if e.req.in_progress then (.alreadyRunning, l1)
    else (.started, setInProgress l1 key)

/-- Sequential composition of `markProcessing` calls on the same key —
`_PENDING_LOCK` serializes concurrent callers, so any interleaving of the
locked sections is some such sequence.  `nows` gives each caller's clock
reading. -/
def runMarkCalls (nows : List Int) (key : String) (l : Entries) : List MarkOutcome × Entries :=
  match nows with
  | [] => ([], l)
  | n :: rest =>
    ((markProcessing n l key).1 :: (runMarkCalls rest key (markProcessing n l key).2).1,
     (runMarkCalls rest key (markProcessing n l key).2).2)

/-- Number of callers that won the test-and-set. -/
def countStarted (os : List MarkOutcome) : Nat :=
  (os.filter fun o => decide (o = .started)).length

/-- The store operations performed under `_PENDING_LOCK` across the handler
(voice_handler.py): `add` is the locked section of `_queue_summary_request`
(sweep, then `_PENDING_REQUESTS[key] = request` with a freshly constructed
dataclass, `created_at = time.time()`, `in_progress = False`); `mark` is the
locked section of `handle_summary_callback`; `pop` is
`_PENDING_REQUESTS.pop(key, None)` (the completion `finally` block, and the
keyboard-failure path); `sweep` is a bare `_cleanup_expired_requests_locked`. -/
inductive StoreOp
  | add (chatId messageId : Int) (fileId : String)
      (mimeType extensionHint : Option String) (logLabel : String) (now : Int)
  | mark (key : String) (now : Int)
  | pop (key : String)
  | sweep (now : Int)

/-- Apply one locked store operation to the store state. -/
def applyOp (op : StoreOp) (s : StoreState) : StoreState :=
  match op with
  | .add chatId messageId fileId mimeType extensionHint logLabel now =>
    let l1 := cleanupEntries now s.entries
    let r : PendingVoiceRequest :=
      { chat_id := chatId, message_id := messageId, file_id := fileId,
        mime_type := mimeType, extension_hint := extensionHint,
        log_label := logLabel, created_at := now, in_progress := false }
    { entries := dictInsert l1 (makeRequestKey chatId messageId) ⟨s.nextUid, r⟩,
      nextUid := s.nextUid + 1 }
  | .mark key now => { s with entries := (markProcessing now s.entries key).2 }
  | .pop key => { s with entries := popKey s.entries key }
  | .sweep now => { s with entries := cleanupEntries now s.entries }

/-- Apply a whole sequence of locked store operations. -/
def applyOps (ops : List StoreOp) (s : StoreState) : StoreState :=
  ops.foldl (fun s op => applyOp op s) s

/-- The entry holding the dataclass object with ghost identity `u`, if it is
still in the store. -/
def entryWithUid : Entries → Nat → Option StoreEntry
  | [], _ => none
  | kv :: rest, u => if kv.2.uid = u then some kv.2 else entryWithUid rest u

/-- The dict's keys. -/
def keysOf (l : Entries) : List String := l.map Prod.fst

/-- The ghost identities of the stored objects. -/
def uidsOf (l : Entries) : List Nat := l.map fun kv => kv.2.uid

/-- Store well-formedness: at most one binding per key (a dict), pairwise
distinct object identities, and every stored identity below the ghost
supply. -/
def StoreInv (s : StoreState) : Prop :=
  (keysOf s.entries).Nodup ∧ (uidsOf s.entries).Nodup ∧
    ∀ kv ∈ s.entries, kv.2.uid < s.nextUid

/-- Once every entry under `key` (if any) is `Processing`, no later
`markProcessing` call can win the test-and-set. -/
def stillBlocked (l : Entries) (key : String) : Prop :=
  ∀ e, lookupKey l key = some e → e.req.in_progress = true

/-- Sample request used to instantiate the store theorems on concrete
inputs: queued at time 0 under chat 1, message 2, still `Pending`. -/
def samplePendingReq : PendingVoiceRequest :=
  { chat_id := 1, message_id := 2, file_id := "f", mime_type := none,
    extension_hint := none, log_label := "voice", created_at := 0,
    in_progress := false }

/-- A store holding the single sample request, still `Pending`. -/
def samplePendingEntries : Entries := [("1:2", ⟨0, samplePendingReq⟩)]

/-- The sample request after the `Pending → Processing` transition. -/
def sampleProcessingReq : PendingVoiceRequest :=
  { samplePendingReq with in_progress := true }

/-- A store holding the single sample request, already `Processing`. -/
def sampleProcessingEntries : Entries := [("1:2", ⟨0, sampleProcessingReq⟩)]

/-- Store state wrapping `sampleProcessingEntries`. -/
def sampleProcessingStore : StoreState := ⟨sampleProcessingEntries, 1⟩

/-! ## Task queue manager (`bot/utils/workers.py`) -/

/-- What one iteration of `TaskQueueManager._worker_loop` (workers.py lines
39-53) observes:

* `shutdownSet` — the `while not self._shutdown_event.is_set()` condition
  observes the flag set, ending the loop;
* `jobCompletes` — `queue.get()` yields a task factory and
  `_execute_task` runs it to completion;
* `jobRaises` — the job raises an exception: caught by `except Exception`,
  logged, and the loop continues;
* `cancelledDelivered` — `asyncio.CancelledError` is delivered (while
  awaiting `queue.get()` or inside the job await): caught by
  `except asyncio.CancelledError`, which `break`s out of the loop. -/
inductive WorkerEvent
  | shutdownSet
  | jobCompletes
  | jobRaises
  | cancelledDelivered
deriving DecidableEq, Repr

/-- How a worker loop ended. -/
inductive WorkerExit
  | shutdownObserved
  | cancelled
deriving DecidableEq, Repr

/-- `_worker_loop` consuming a finite trace of events: the number of
iterations that executed a job (including jobs that raised), and whether and
how the loop terminated (`none` = trace exhausted with the worker still
looping). -/
def workerLoop : List WorkerEvent → Nat × Option WorkerExit
  | [] => (0, none)
  | .shutdownSet :: _ => (0, some .shutdownObserved)
  | .cancelledDelivered :: _ => (0, some .cancelled)
  | .jobCompletes :: rest => ((workerLoop rest).1 + 1, (workerLoop rest).2)
  | .jobRaises :: rest => ((workerLoop rest).1 + 1, (workerLoop rest).2)

/-- Operations against `TaskQueueManager.queue` (an `asyncio.Queue`, i.e. a
FIFO deque): `enq` models `enqueue`/`queue.put` completing, `deq` models a
worker's `queue.get` being serviced. -/
inductive QueueOp (α : Type)
  | enq (a : α)
  | deq

/-- Observable history of the queue: all items accepted (in `put` order), all
items handed to workers (in `get` order), and the current backlog. -/
structure QueueTrace (α : Type) where
  enqueued : List α
  started : List α
  backlog : List α
deriving DecidableEq, Repr

/-- Run a trace of queue operations.  `asyncio.Queue` appends on `put` and
pops from the front on `get`; a `get` on an empty queue suspends until an
item arrives, so a `deq` against an empty backlog hands nothing to the
worker. -/
def runQueue {α : Type} : List (QueueOp α) → QueueTrace α → QueueTrace α
  | [], st => st
  | .enq a :: rest, st =>
    runQueue rest { st with enqueued := st.enqueued ++ [a], backlog := st.backlog ++ [a] }
  | .deq :: rest, st =>
    match st.backlog with
    | [] => runQueue rest st
    | x :: xs => runQueue rest { st with started := st.started ++ [x], backlog := xs }

/-! ## Association-list lemmas for the store -/

theorem lookupKey_eq_none_of_not_mem {l : Entries} {key : String}
    (h : key ∉ keysOf l) : lookupKey l key = none := by
  induction l with
  | nil => rfl
  | cons kv rest ih =>
    simp only [keysOf, List.map_cons, List.mem_cons, not_or] at h
    rw [lookupKey, if_neg fun hh => h.1 hh.symm]
    exact ih h.2

theorem mem_of_lookupKey_eq_some {l : Entries} {key : String} {e : StoreEntry}
    (h : lookupKey l key = some e) : (key, e) ∈ l := by
  induction l with
  | nil => simp [lookupKey] at h
  | cons kv rest ih =>
    rw [lookupKey] at h
    by_cases hk : kv.1 = key
    · rw [if_pos hk] at h
      injection h with h
      subst h; subst hk
      exact List.mem_cons_self _ _
    · rw [if_neg hk] at h
      exact List.mem_cons_of_mem _ (ih h)

theorem keysOf_filter_sublist (q : String × StoreEntry → Bool) (l : Entries) :
    List.Sublist (keysOf (l.filter q)) (keysOf l) :=
  (List.filter_sublist l).map Prod.fst

theorem nodup_cons_keysOf {kv : String × StoreEntry} {rest : Entries}
    (hnd : (keysOf (kv :: rest)).Nodup) :
    kv.1 ∉ keysOf rest ∧ (keysOf rest).Nodup :=
  List.nodup_cons.mp (by simpa [keysOf] using hnd)

theorem lookupKey_eq_some_of_mem {l : Entries} {key : String} {e : StoreEntry}
    (hnd : (keysOf l).Nodup) (h : (key, e) ∈ l) : lookupKey l key = some e := by
  induction l with
  | nil => simp at h
  | cons kv rest ih =>
    rcases List.mem_cons.mp h with h | h
    · rw [← h, lookupKey, if_pos rfl]
    · have hk : kv.1 ≠ key := by
        intro hke
        apply (nodup_cons_keysOf hnd).1
        rw [hke]
        exact List.mem_map_of_mem Prod.fst h
      rw [lookupKey, if_neg hk]
      exact ih (nodup_cons_keysOf hnd).2 h

theorem fst_eq_of_mem_of_nodup {l : Entries} (hnd : (keysOf l).Nodup)
    {kv1 kv2 : String × StoreEntry} (h1 : kv1 ∈ l) (h2 : kv2 ∈ l)
    (h : kv1.1 = kv2.1) : kv1 = kv2 :=
  List.inj_on_of_nodup_map (by simpa [keysOf] using hnd) h1 h2 h

theorem entry_eq_of_uid_eq {l : Entries} (hnd : (uidsOf l).Nodup)
    {kv1 kv2 : String × StoreEntry} (h1 : kv1 ∈ l) (h2 : kv2 ∈ l)
    (h : kv1.2.uid = kv2.2.uid) : kv1 = kv2 :=
  List.inj_on_of_nodup_map (by simpa [uidsOf] using hnd) h1 h2 h

theorem lookupKey_filter {q : String × StoreEntry → Bool} {l : Entries} {key : String}
    (hnd : (keysOf l).Nodup) (e : StoreEntry) :
    lookupKey (l.filter q) key = some e ↔ lookupKey l key = some e ∧ q (key, e) = true := by
  induction l with
  | nil => simp [lookupKey]
  | cons kv rest ih =>
    have hhead : kv.1 ∉ keysOf rest := (nodup_cons_keysOf hnd).1
    have hnd' : (keysOf rest).Nodup := (nodup_cons_keysOf hnd).2
    obtain ⟨k1, v1⟩ := kv
    by_cases hk : k1 = key
    · subst hk
      cases hq : q (k1, v1) with
      | false =>
        have hnone : lookupKey (rest.filter q) k1 = none := by
          apply lookupKey_eq_none_of_not_mem
          intro hmem
          exact hhead ((keysOf_filter_sublist q rest).subset hmem)
        rw [List.filter_cons_of_neg (by simp [hq]), hnone]
        constructor
        · intro h; cases h
        · rintro ⟨h1, h2⟩
          rw [lookupKey, if_pos rfl] at h1
          injection h1 with h1
          rw [← h1, hq] at h2
          cases h2
      | true =>
        rw [List.filter_cons_of_pos (by simp [hq])]
        rw [lookupKey, if_pos rfl, lookupKey, if_pos rfl]
        constructor
        · intro h
          injection h with h
          exact ⟨by rw [h], by rw [← h]; exact hq⟩
        · intro h
          exact h.1
    · have hstep : lookupKey ((k1, v1) :: rest) key = lookupKey rest key := by
        rw [lookupKey, if_neg hk]
      cases hq : q (k1, v1) with
      | false =>
        rw [List.filter_cons_of_neg (by simp [hq]), hstep]
        exact ih hnd'
      | true =>
        rw [List.filter_cons_of_pos (by simp [hq]), lookupKey, if_neg hk, hstep]
        exact ih hnd'

theorem popKey_sublist (l : Entries) (key : String) : List.Sublist (popKey l key) l := by
  induction l with
  | nil => exact List.Sublist.refl _
  | cons kv rest ih =>
    rw [popKey]
    by_cases h : kv.1 = key
    · rw [if_pos h]
      exact List.sublist_cons_self _ _
    · rw [if_neg h]
      exact ih.cons₂ kv

theorem foldl_popKey_sublist (ks : List String) (l : Entries) :
    List.Sublist (ks.foldl popKey l) l := by
  induction ks generalizing l with
  | nil => exact List.Sublist.refl _
  | cons k ks ih => exact (ih (popKey l k)).trans (popKey_sublist l k)

theorem cleanupEntries_sublist (now : Int) (l : Entries) :
    List.Sublist (cleanupEntries now l) l :=
  foldl_popKey_sublist _ l

theorem nodup_keysOf_of_sublist {l l' : Entries} (h : List.Sublist l' l)
    (hnd : (keysOf l).Nodup) : (keysOf l').Nodup :=
  List.Nodup.sublist (h.map Prod.fst) hnd

theorem nodup_uidsOf_of_sublist {l l' : Entries} (h : List.Sublist l' l)
    (hnd : (uidsOf l).Nodup) : (uidsOf l').Nodup := by
  simp only [uidsOf] at hnd ⊢
  exact List.Nodup.sublist (h.map _) hnd

theorem popKey_eq_filter {l : Entries} (key : String) (hnd : (keysOf l).Nodup) :
    popKey l key = l.filter fun kv => !(decide (kv.1 = key)) := by
  induction l with
  | nil => rfl
  | cons kv rest ih =>
    rw [popKey]
    by_cases h : kv.1 = key
    · rw [if_pos h, List.filter_cons_of_neg (by simp [h])]
      have : ∀ kv' ∈ rest, (!(decide (kv'.1 = key))) = true := by
        intro kv' hm
        have : kv'.1 ≠ key := by
          intro he
          apply (nodup_cons_keysOf hnd).1
          rw [h, ← he]
          exact List.mem_map_of_mem Prod.fst hm
        simp [this]
      exact (List.filter_eq_self.mpr this).symm
    · rw [if_neg h, List.filter_cons_of_pos (by simp [h])]
      rw [ih (nodup_cons_keysOf hnd).2]

theorem foldl_popKey_eq_filter {l : Entries} (ks : List String) (hnd : (keysOf l).Nodup) :
    ks.foldl popKey l = l.filter fun kv => !(decide (kv.1 ∈ ks)) := by
  induction ks generalizing l with
  | nil => simp
  | cons k ks ih =>
    rw [List.foldl_cons, ih (nodup_keysOf_of_sublist (popKey_sublist l k) hnd),
        popKey_eq_filter k hnd, List.filter_filter]
    apply List.filter_congr
    intro kv _
    by_cases h1 : kv.1 = k <;> by_cases h2 : kv.1 ∈ ks <;>
      simp [h1, h2, List.mem_cons]

theorem cleanupEntries_eq_filter {l : Entries} (now : Int) (hnd : (keysOf l).Nodup) :
    cleanupEntries now l = l.filter fun kv => !(isExpired now kv.2.req) := by
  rw [cleanupEntries, foldl_popKey_eq_filter _ hnd]
  apply List.filter_congr
  intro kv hm
  by_cases h : isExpired now kv.2.req
  · have : kv.1 ∈ (List.filter (fun kv => isExpired now kv.2.req) l).map Prod.fst :=
      List.mem_map_of_mem Prod.fst (List.mem_filter.mpr ⟨hm, h⟩)
    simp [this, h]
  · have : kv.1 ∉ (List.filter (fun kv => isExpired now kv.2.req) l).map Prod.fst := by
      intro hmem
      rcases List.mem_map.mp hmem with ⟨kv', hm', he⟩
      have hq := (List.mem_filter.mp hm').2
      have hmem' : kv' ∈ l := (List.mem_filter.mp hm').1
      have : kv' = kv := fst_eq_of_mem_of_nodup hnd hmem' hm he
      rw [this] at hq
      exact h hq
    simp [this, h]

theorem keysOf_setInProgress (l : Entries) (key : String) :
    keysOf (setInProgress l key) = keysOf l := by
  induction l with
  | nil => rfl
  | cons kv rest ih =>
    simp only [setInProgress, keysOf, List.map_cons] at ih ⊢
    rw [ih]
    congr 1
    by_cases h : kv.1 = key
    · rw [if_pos h]
    · rw [if_neg h]

theorem uidsOf_setInProgress (l : Entries) (key : String) :
    uidsOf (setInProgress l key) = uidsOf l := by
  induction l with
  | nil => rfl
  | cons kv rest ih =>
    simp only [setInProgress, uidsOf, List.map_cons] at ih ⊢
    rw [ih]
    congr 1
    by_cases h : kv.1 = key
    · rw [if_pos h]
      simp [markTrue]
    · rw [if_neg h]

theorem lookupKey_setInProgress_self (l : Entries) (key : String) :
    lookupKey (setInProgress l key) key = (lookupKey l key).map markTrue := by
  induction l with
  | nil => rfl
  | cons kv rest ih =>
    simp only [setInProgress, List.map_cons] at ih ⊢
    by_cases h : kv.1 = key
    · rw [if_pos h]
      rw [show lookupKey ((kv.1, markTrue kv.2) :: List.map _ rest) key =
            some (markTrue kv.2) from by rw [lookupKey, if_pos h]]
      rw [lookupKey, if_pos h]
      rfl
    · rw [if_neg h]
      rw [show lookupKey (kv :: List.map _ rest) key =
            lookupKey (List.map _ rest) key from by rw [lookupKey, if_neg h]]
      rw [lookupKey, if_neg h]
      exact ih

theorem mem_setInProgress {l : Entries} {key : String} {kv : String × StoreEntry}
    (h : kv ∈ setInProgress l key) :
    ∃ e0, (kv.1, e0) ∈ l ∧ (kv.2 = e0 ∨ kv.2 = markTrue e0) := by
  rcases List.mem_map.mp h with ⟨kv0, h0, heq⟩
  by_cases hk : kv0.1 = key
  · rw [if_pos hk] at heq
    refine ⟨kv0.2, ?_, .inr ?_⟩
    · rw [← heq]
      exact h0
    · rw [← heq]
  · rw [if_neg hk] at heq
    refine ⟨kv0.2, ?_, .inl ?_⟩
    · rw [← heq]
      exact h0
    · rw [← heq]

theorem mem_popKey {l : Entries} {key : String} {kv : String × StoreEntry}
    (h : kv ∈ popKey l key) : kv ∈ l :=
  (popKey_sublist l key).subset h

theorem mem_cleanupEntries {now : Int} {l : Entries} {kv : String × StoreEntry}
    (h : kv ∈ cleanupEntries now l) : kv ∈ l :=
  (cleanupEntries_sublist now l).subset h

theorem mem_dictInsert {l : Entries} {key : String} {v : StoreEntry}
    {kv : String × StoreEntry} (h : kv ∈ dictInsert l key v) :
    kv ∈ l ∨ kv = (key, v) := by
  induction l with
  | nil =>
    simp only [dictInsert, List.mem_singleton] at h
    exact .inr h
  | cons kv0 rest ih =>
    rw [dictInsert] at h
    by_cases hk : kv0.1 = key
    · rw [if_pos hk] at h
      rcases List.mem_cons.mp h with h | h
      · exact .inr h
      · exact .inl (List.mem_cons_of_mem _ h)
    · rw [if_neg hk] at h
      rcases List.mem_cons.mp h with h | h
      · exact .inl (h ▸ List.mem_cons_self _ _)
      · rcases ih h with h | h
        · exact .inl (List.mem_cons_of_mem _ h)
        · exact .inr h

theorem keysOf_dictInsert_subset {l : Entries} {key : String} {v : StoreEntry} :
    ∀ k ∈ keysOf (dictInsert l key v), k = key ∨ k ∈ keysOf l := by
  intro k hk
  rcases List.mem_map.mp hk with ⟨kv, hm, he⟩
  rcases mem_dictInsert hm with h | h
  · exact .inr (he ▸ List.mem_map_of_mem Prod.fst h)
  · left
    rw [← he, h]

theorem nodup_keysOf_dictInsert {l : Entries} {key : String} {v : StoreEntry}
    (hnd : (keysOf l).Nodup) : (keysOf (dictInsert l key v)).Nodup := by
  induction l with
  | nil => simp [dictInsert, keysOf]
  | cons kv rest ih =>
    rw [dictInsert]
    by_cases hk : kv.1 = key
    · rw [if_pos hk]
      simp only [keysOf, List.map_cons, List.nodup_cons] at hnd ⊢
      exact ⟨hk ▸ hnd.1, hnd.2⟩
    · rw [if_neg hk]
      simp only [keysOf, List.map_cons, List.nodup_cons] at hnd ⊢
      refine ⟨?_, ih hnd.2⟩
      intro hmem
      rcases keysOf_dictInsert_subset kv.1 hmem with h | h
      · exact hk h
      · exact hnd.1 h

theorem uidsOf_dictInsert_subset {l : Entries} {key : String} {v : StoreEntry} :
    ∀ u ∈ uidsOf (dictInsert l key v), u = v.uid ∨ u ∈ uidsOf l := by
  intro u hu
  rcases List.mem_map.mp hu with ⟨kv, hm, he⟩
  rcases mem_dictInsert hm with h | h
  · right
    rw [← he]
    exact List.mem_map_of_mem _ h
  · left
    rw [← he, h]

theorem nodup_uidsOf_dictInsert {l : Entries} {key : String} {v : StoreEntry}
    (hnd : (uidsOf l).Nodup) (hfresh : v.uid ∉ uidsOf l) :
    (uidsOf (dictInsert l key v)).Nodup := by
  induction l with
  | nil => simp [dictInsert, uidsOf]
  | cons kv rest ih =>
    rw [dictInsert]
    simp only [uidsOf, List.map_cons, List.nodup_cons, List.mem_cons, not_or] at hnd hfresh
    by_cases hk : kv.1 = key
    · rw [if_pos hk]
      simp only [uidsOf, List.map_cons, List.nodup_cons]
      exact ⟨hfresh.2, hnd.2⟩
    · rw [if_neg hk]
      simp only [uidsOf, List.map_cons, List.nodup_cons]
      refine ⟨?_, ih hnd.2 hfresh.2⟩
      intro hmem
      rcases uidsOf_dictInsert_subset kv.2.uid hmem with h | h
      · exact hfresh.1 h.symm
      · exact hnd.1 h

theorem entryWithUid_eq_some {l : Entries} {u : Nat} {e : StoreEntry}
    (h : entryWithUid l u = some e) : (∃ k, (k, e) ∈ l) ∧ e.uid = u := by
  induction l with
  | nil => simp [entryWithUid] at h
  | cons kv rest ih =>
    rw [entryWithUid] at h
    by_cases hk : kv.2.uid = u
    · rw [if_pos hk] at h
      injection h with h
      subst h
      exact ⟨⟨kv.1, List.mem_cons_self _ _⟩, hk⟩
    · rw [if_neg hk] at h
      rcases ih h with ⟨⟨k, hm⟩, hu⟩
      exact ⟨⟨k, List.mem_cons_of_mem _ hm⟩, hu⟩

theorem entryWithUid_none_or_eq {l : Entries} {u : Nat} {e : StoreEntry}
    (h : ∀ k e0, (k, e0) ∈ l → e0.uid = u → e0 = e) :
    entryWithUid l u = none ∨ entryWithUid l u = some e := by
  cases hE : entryWithUid l u with
  | none => exact .inl rfl
  | some e0 =>
    rcases entryWithUid_eq_some hE with ⟨⟨k, hm⟩, hu⟩
    exact .inr (by rw [h k e0 hm hu])

theorem markTrue_of_in_progress {e : StoreEntry} (h : e.req.in_progress = true) :
    markTrue e = e := by
  obtain ⟨u, r⟩ := e
  obtain ⟨c, m, f, mt, eh, ll, ca, ip⟩ := r
  simp only [markTrue]
  simp only at h
  rw [h]

theorem entryWithUid_eq_none_iff {l : Entries} {u : Nat} :
    entryWithUid l u = none ↔ ∀ k e, (k, e) ∈ l → e.uid ≠ u := by
  induction l with
  | nil => simp [entryWithUid]
  | cons kv rest ih =>
    rw [entryWithUid]
    by_cases hk : kv.2.uid = u
    · rw [if_pos hk]
      constructor
      · intro h
        cases h
      · intro h
        exact absurd hk (h kv.1 kv.2 (List.mem_cons_self _ _))
    · rw [if_neg hk]
      rw [ih]
      constructor
      · intro h k e hm
        rcases List.mem_cons.mp hm with hm | hm
        · intro he
          apply hk
          rw [show kv.2 = e from congrArg Prod.snd hm.symm]
          exact he
        · exact h k e hm
      · intro h k e hm
        exact h k e (List.mem_cons_of_mem _ hm)

theorem markProcessing_entries_cases (now : Int) (l : Entries) (key : String) :
    (markProcessing now l key).2 = cleanupEntries now l ∨
    (markProcessing now l key).2 = setInProgress (cleanupEntries now l) key := by
  simp only [markProcessing]
  cases hE : lookupKey (cleanupEntries now l) key with
  | none => exact .inl rfl
  | some e =>
    cases hip : e.req.in_progress with
    | true => simp [hip]
    | false => simp [hip]

theorem nodup_keysOf_markProcessing {l : Entries} (now : Int) (key : String)
    (hnd : (keysOf l).Nodup) : (keysOf (markProcessing now l key).2).Nodup := by
  rcases markProcessing_entries_cases now l key with h | h
  · rw [h]
    exact nodup_keysOf_of_sublist (cleanupEntries_sublist now l) hnd
  · rw [h, keysOf_setInProgress]
    exact nodup_keysOf_of_sublist (cleanupEntries_sublist now l) hnd

theorem nodup_uidsOf_markProcessing {l : Entries} (now : Int) (key : String)
    (hnd : (uidsOf l).Nodup) : (uidsOf (markProcessing now l key).2).Nodup := by
  rcases markProcessing_entries_cases now l key with h | h
  · rw [h]
    exact nodup_uidsOf_of_sublist (cleanupEntries_sublist now l) hnd
  · rw [h, uidsOf_setInProgress]
    exact nodup_uidsOf_of_sublist (cleanupEntries_sublist now l) hnd

theorem nextUid_mono_applyOp (op : StoreOp) (s : StoreState) :
    s.nextUid ≤ (applyOp op s).nextUid := by
  cases op <;> simp [applyOp]

theorem storeInv_applyOp (op : StoreOp) (s : StoreState) (h : StoreInv s) :
    StoreInv (applyOp op s) := by
  obtain ⟨hk, hu, hf⟩ := h
  cases op with
  | add chatId messageId fileId mimeType extensionHint logLabel now =>
    simp only [applyOp]
    refine ⟨?_, ?_, ?_⟩
    · exact nodup_keysOf_dictInsert
        (nodup_keysOf_of_sublist (cleanupEntries_sublist now s.entries) hk)
    · apply nodup_uidsOf_dictInsert
        (nodup_uidsOf_of_sublist (cleanupEntries_sublist now s.entries) hu)
      intro hmem
      rcases List.mem_map.mp hmem with ⟨kv, hm, he⟩
      have hlt := hf kv (mem_cleanupEntries hm)
      simp only at he
      omega
    · intro kv hm
      rcases mem_dictInsert hm with hmem | hmem
      · have hlt := hf _ (mem_cleanupEntries hmem)
        simp only
        omega
      · rw [show kv.2 = ⟨s.nextUid, _⟩ from congrArg Prod.snd hmem]
        simp
  | mark key now =>
    refine ⟨nodup_keysOf_markProcessing now key hk, nodup_uidsOf_markProcessing now key hu, ?_⟩
    intro kv hm
    simp only [applyOp] at hm ⊢
    rcases markProcessing_entries_cases now s.entries key with hcase | hcase
    · rw [hcase] at hm
      exact hf _ (mem_cleanupEntries hm)
    · rw [hcase] at hm
      rcases mem_setInProgress hm with ⟨e1, hm1, he1⟩
      have huid : kv.2.uid = e1.uid := by
        rcases he1 with h1 | h1
        · rw [h1]
        · rw [h1]
          rfl
      rw [huid]
      exact hf _ (mem_cleanupEntries hm1)
  | pop key =>
    refine ⟨nodup_keysOf_of_sublist (popKey_sublist s.entries key) hk,
            nodup_uidsOf_of_sublist (popKey_sublist s.entries key) hu, ?_⟩
    intro kv hm
    exact hf _ (mem_popKey hm)
  | sweep now =>
    refine ⟨nodup_keysOf_of_sublist (cleanupEntries_sublist now s.entries) hk,
            nodup_uidsOf_of_sublist (cleanupEntries_sublist now s.entries) hu, ?_⟩
    intro kv hm
    exact hf _ (mem_cleanupEntries hm)

theorem processing_entry_applyOp (op : StoreOp) (s : StoreState) (hInv : StoreInv s)
    {u : Nat} {e : StoreEntry} (hE : entryWithUid s.entries u = some e)
    (hip : e.req.in_progress = true) :
    entryWithUid (applyOp op s).entries u = none ∨
      entryWithUid (applyOp op s).entries u = some e := by
  obtain ⟨hk, hu, hf⟩ := hInv
  rcases entryWithUid_eq_some hE with ⟨⟨k0, hm0⟩, hu0⟩
  have hult : u < s.nextUid := hu0 ▸ hf _ hm0
  apply entryWithUid_none_or_eq
  intro k e0 hm he0
  cases op with
  | add chatId messageId fileId mimeType extensionHint logLabel now =>
    simp only [applyOp] at hm
    rcases mem_dictInsert hm with hmem | hmem
    · have hms : (k, e0) ∈ s.entries := mem_cleanupEntries hmem
      have hpair := entry_eq_of_uid_eq hu hms hm0 (by rw [he0, hu0])
      exact congrArg Prod.snd hpair
    · exfalso
      have heq : e0.uid = s.nextUid := by
        rw [show e0 = ⟨s.nextUid, _⟩ from congrArg Prod.snd hmem]
      rw [he0] at heq
      omega
  | mark key now =>
    simp only [applyOp] at hm
    rcases markProcessing_entries_cases now s.entries key with hcase | hcase
    · rw [hcase] at hm
      have hms : (k, e0) ∈ s.entries := mem_cleanupEntries hm
      have hpair := entry_eq_of_uid_eq hu hms hm0 (by rw [he0, hu0])
      exact congrArg Prod.snd hpair
    · rw [hcase] at hm
      rcases mem_setInProgress hm with ⟨e1, hm1, he1⟩
      have huid1 : e1.uid = u := by
        rcases he1 with h1 | h1
        · have h2 : e0 = e1 := h1
          rw [← h2]
          exact he0
        · have h2 : e0 = markTrue e1 := h1
          have h3 : e0.uid = e1.uid := by
            rw [h2]
            rfl
          rw [← h3]
          exact he0
      have hms : (k, e1) ∈ s.entries := mem_cleanupEntries hm1
      have hpair := entry_eq_of_uid_eq hu hms hm0 (by rw [huid1, hu0])
      have he1e : e1 = e := congrArg Prod.snd hpair
      rcases he1 with h1 | h1
      · have h2 : e0 = e1 := h1
        rw [h2, he1e]
      · have h2 : e0 = markTrue e1 := h1
        rw [h2, he1e, markTrue_of_in_progress hip]
  | pop key =>
    simp only [applyOp] at hm
    have hms : (k, e0) ∈ s.entries := mem_popKey hm
    have hpair := entry_eq_of_uid_eq hu hms hm0 (by rw [he0, hu0])
    exact congrArg Prod.snd hpair
  | sweep now =>
    simp only [applyOp] at hm
    have hms : (k, e0) ∈ s.entries := mem_cleanupEntries hm
    have hpair := entry_eq_of_uid_eq hu hms hm0 (by rw [he0, hu0])
    exact congrArg Prod.snd hpair

theorem absent_uid_applyOp (op : StoreOp) (s : StoreState) (hInv : StoreInv s)
    {u : Nat} (hu : u < s.nextUid) (hN : entryWithUid s.entries u = none) :
    entryWithUid (applyOp op s).entries u = none := by
  rw [entryWithUid_eq_none_iff] at hN ⊢
  intro k e0 hm he0
  cases op with
  | add chatId messageId fileId mimeType extensionHint logLabel now =>
    simp only [applyOp] at hm
    rcases mem_dictInsert hm with hmem | hmem
    · exact hN _ _ (mem_cleanupEntries hmem) he0
    · have heq : e0.uid = s.nextUid := by
        rw [show e0 = ⟨s.nextUid, _⟩ from congrArg Prod.snd hmem]
      rw [he0] at heq
      omega
  | mark key now =>
    simp only [applyOp] at hm
    rcases markProcessing_entries_cases now s.entries key with hcase | hcase
    · rw [hcase] at hm
      exact hN _ _ (mem_cleanupEntries hm) he0
    · rw [hcase] at hm
      rcases mem_setInProgress hm with ⟨e1, hm1, he1⟩
      have huid1 : e1.uid = u := by
        rcases he1 with h1 | h1
        · have h2 : e0 = e1 := h1
          rw [← h2]
          exact he0
        · have h2 : e0 = markTrue e1 := h1
          have h3 : e0.uid = e1.uid := by
            rw [h2]
            rfl
          rw [← h3]
          exact he0
      exact hN _ _ (mem_cleanupEntries hm1) huid1
  | pop key =>
    simp only [applyOp] at hm
    exact hN _ _ (mem_popKey hm) he0
  | sweep now =>
    simp only [applyOp] at hm
    exact hN _ _ (mem_cleanupEntries hm) he0

theorem storeInv_applyOps (ops : List StoreOp) (s : StoreState) (h : StoreInv s) :
    StoreInv (applyOps ops s) := by
  induction ops generalizing s with
  | nil => exact h
  | cons op ops ih => exact ih _ (storeInv_applyOp op s h)

theorem absent_uid_applyOps (ops : List StoreOp) (s : StoreState) (hInv : StoreInv s)
    {u : Nat} (hu : u < s.nextUid) (hN : entryWithUid s.entries u = none) :
    entryWithUid (applyOps ops s).entries u = none := by
  induction ops generalizing s with
  | nil => exact hN
  | cons op ops ih =>
    have h1 := absent_uid_applyOp op s hInv hu hN
    have h2 := nextUid_mono_applyOp op s
    have h3 := ih (applyOp op s) (storeInv_applyOp op s hInv) (by omega) h1
    exact h3

theorem processing_entry_applyOps (ops : List StoreOp) (s : StoreState) (hInv : StoreInv s)
    {u : Nat} {e : StoreEntry} (hE : entryWithUid s.entries u = some e)
    (hip : e.req.in_progress = true) :
    entryWithUid (applyOps ops s).entries u = none ∨
      entryWithUid (applyOps ops s).entries u = some e := by
  induction ops generalizing s with
  | nil => exact .inr hE
  | cons op ops ih =>
    have hInv2 := storeInv_applyOp op s hInv
    have hu_lt : u < (applyOp op s).nextUid := by
      rcases entryWithUid_eq_some hE with ⟨⟨k, hm⟩, huid⟩
      have h1 : e.uid < s.nextUid := hInv.2.2 _ hm
      have h2 := nextUid_mono_applyOp op s
      omega
    rcases processing_entry_applyOp op s hInv hE hip with h1 | h1
    · exact .inl (absent_uid_applyOps ops _ hInv2 hu_lt h1)
    · exact ih _ hInv2 h1

theorem lookupKey_cleanup {l : Entries} (now : Int) (key : String) (e : StoreEntry)
    (hnd : (keysOf l).Nodup) :
    lookupKey (cleanupEntries now l) key = some e ↔
      lookupKey l key = some e ∧ isExpired now e.req = false := by
  rw [cleanupEntries_eq_filter now hnd, lookupKey_filter hnd e]
  constructor
  · rintro ⟨h1, h2⟩
    refine ⟨h1, ?_⟩
    simpa using h2
  · rintro ⟨h1, h2⟩
    exact ⟨h1, by simp [h2]⟩

theorem markProcessing_started_iff (now : Int) (l : Entries) (key : String) :
    (markProcessing now l key).1 = .started ↔
      ∃ e, lookupKey (cleanupEntries now l) key = some e ∧ e.req.in_progress = false := by
  simp only [markProcessing]
  cases hE : lookupKey (cleanupEntries now l) key with
  | none => simp
  | some e =>
    cases hip : e.req.in_progress with
    | true => simp [hip]
    | false => simp [hip]

theorem markProcessing_state_started (now : Int) (l : Entries) (key : String)
    (h : (markProcessing now l key).1 = .started) :
    (markProcessing now l key).2 = setInProgress (cleanupEntries now l) key := by
  simp only [markProcessing] at h ⊢
  cases hE : lookupKey (cleanupEntries now l) key with
  | none =>
    rw [hE] at h
    cases h
  | some e =>
    rw [hE] at h
    cases hip : e.req.in_progress with
    | true => simp [hip] at h
    | false => simp [hip]

theorem markProcessing_state_not_started (now : Int) (l : Entries) (key : String)
    (h : (markProcessing now l key).1 ≠ .started) :
    (markProcessing now l key).2 = cleanupEntries now l := by
  simp only [markProcessing] at h ⊢
  cases hE : lookupKey (cleanupEntries now l) key with
  | none => rfl
  | some e =>
    rw [hE] at h
    cases hip : e.req.in_progress with
    | true => simp [hip]
    | false => simp [hip] at h

theorem stillBlocked_cleanup {l : Entries} (now : Int) (key : String)
    (hnd : (keysOf l).Nodup) (hb : stillBlocked l key) :
    stillBlocked (cleanupEntries now l) key := by
  intro e hE
  exact hb e ((lookupKey_cleanup now key e hnd).mp hE).1

theorem stillBlocked_setInProgress (l : Entries) (key : String) :
    stillBlocked (setInProgress l key) key := by
  intro e hE
  rw [lookupKey_setInProgress_self] at hE
  cases h : lookupKey l key with
  | none =>
    rw [h] at hE
    cases hE
  | some e0 =>
    rw [h] at hE
    injection hE with hE
    rw [← hE]
    rfl

theorem countStarted_cons (o : MarkOutcome) (os : List MarkOutcome) :
    countStarted (o :: os) = (if o = .started then 1 else 0) + countStarted os := by
  rw [countStarted, countStarted, List.filter_cons]
  by_cases h : o = .started
  · simp [h, Nat.add_comm]
  · simp [h]

theorem markProcessing_blocked (now : Int) {l : Entries} (key : String)
    (hnd : (keysOf l).Nodup) (hb : stillBlocked l key) :
    (markProcessing now l key).1 ≠ .started := by
  intro h
  rcases (markProcessing_started_iff now l key).mp h with ⟨e, hE, hip⟩
  have := stillBlocked_cleanup now key hnd hb e hE
  rw [this] at hip
  cases hip

theorem stillBlocked_markProcessing (now : Int) {l : Entries} (key : String)
    (hnd : (keysOf l).Nodup) (hb : stillBlocked l key) :
    stillBlocked (markProcessing now l key).2 key := by
  rw [markProcessing_state_not_started now l key (markProcessing_blocked now key hnd hb)]
  exact stillBlocked_cleanup now key hnd hb

theorem countStarted_blocked (nows : List Int) {l : Entries} (key : String)
    (hnd : (keysOf l).Nodup) (hb : stillBlocked l key) :
    countStarted (runMarkCalls nows key l).1 = 0 := by
  induction nows generalizing l with
  | nil => rfl
  | cons n rest ih =>
    rw [runMarkCalls, countStarted_cons, if_neg (markProcessing_blocked n key hnd hb)]
    rw [ih (nodup_keysOf_markProcessing n key hnd) (stillBlocked_markProcessing n key hnd hb)]

theorem countStarted_le_one (nows : List Int) (key : String) {l : Entries}
    (hnd : (keysOf l).Nodup) :
    countStarted (runMarkCalls nows key l).1 ≤ 1 := by
  induction nows generalizing l with
  | nil => exact Nat.zero_le 1
  | cons n rest ih =>
    rw [runMarkCalls, countStarted_cons]
    by_cases h : (markProcessing n l key).1 = .started
    · rw [if_pos h]
      have hblocked : stillBlocked (markProcessing n l key).2 key := by
        rw [markProcessing_state_started n l key h]
        exact stillBlocked_setInProgress _ key
      have hz := countStarted_blocked rest key (nodup_keysOf_markProcessing n key hnd) hblocked
      omega
    · rw [if_neg h]
      have := ih (nodup_keysOf_markProcessing n key hnd)
      omega

theorem countStarted_eq_one (now : Int) (rest : List Int) (key : String) {l : Entries}
    (hnd : (keysOf l).Nodup) (e : StoreEntry)
    (hE : lookupKey l key = some e) (hip : e.req.in_progress = false)
    (hex : isExpired now e.req = false) :
    countStarted (runMarkCalls (now :: rest) key l).1 = 1 := by
  have hstart : (markProcessing now l key).1 = .started := by
    rw [markProcessing_started_iff]
    exact ⟨e, (lookupKey_cleanup now key e hnd).mpr ⟨hE, hex⟩, hip⟩
  rw [runMarkCalls, countStarted_cons, if_pos hstart]
  have hblocked : stillBlocked (markProcessing now l key).2 key := by
    rw [markProcessing_state_started now l key hstart]
    exact stillBlocked_setInProgress _ key
  rw [countStarted_blocked rest key (nodup_keysOf_markProcessing now key hnd) hblocked]

theorem runQueue_decomposition {α : Type} (ops : List (QueueOp α)) (st : QueueTrace α)
    (h : st.enqueued = st.started ++ st.backlog) :
    (runQueue ops st).enqueued = (runQueue ops st).started ++ (runQueue ops st).backlog := by
  induction ops generalizing st with
  | nil => exact h
  | cons op rest ih =>
    cases op with
    | enq a =>
      rw [runQueue]
      exact ih _ (by rw [h, List.append_assoc])
    | deq =>
      rw [runQueue]
      cases hb : st.backlog with
      | nil => exact ih _ h
      | cons x xs =>
        exact ih _ (by rw [h, hb, List.append_assoc]; rfl)

/-! ## Claim theorems -/

/-- C3 counterexample.  With the converter and validator succeeding,
transcript `"hi"` (non-empty) and a formatter that succeeds returning a
blank string, `_run_pipeline` returns the empty string — refuting
"`process_voice` never returns an empty string for a non-empty transcript"
(`process_voice` resolves its result future with exactly the value
`_run_pipeline` returns).  Also, with an empty transcript and a formatter
that returns `"llm output"`, the delivered text is the formatter output, not
the empty-input sentinel — the sentinel is keyed on the final response being
blank, not on the transcript. -/
theorem C3_counterexample :
    (runPipeline
      { convert := fun _ => some ["tmp", "a.wav"],
        validate := fun _ => true,
        transcribe := fun _ => some "hi",
        format := fun _ => some " " }
      ["tmp", "a.ogg"]).result = .ok "" ∧
    ("hi" : String) ≠ "" ∧
    deliveredText
      (runPipeline
        { convert := fun _ => some ["tmp", "a.wav"],
          validate := fun _ => true,
          transcribe := fun _ => some "",
          format := fun _ => some "llm output" }
        ["tmp", "a.ogg"]).result = "llm output" ∧
    ("llm output" : String) ≠ emptyVoiceReply := by
  refine ⟨rfl, by decide, rfl, by decide⟩

/-- C3 (amended): `_run_pipeline` returns the empty string exactly when the
text it selects strips to empty; in particular, on formatter failure with a
transcript whose stripped form is non-empty, the result is that non-empty
stripped transcript.  The handler substitutes the fixed empty-input sentinel
exactly when the pipeline response strips to empty, so the text delivered to
the user on a successful run is never empty and never an error message. -/
theorem C3_empty_result_delivery (steps : Steps) (sourcePath wav : FsPath)
    (transcript response : String) :
    (steps.convert sourcePath = some wav → steps.validate wav = true →
      steps.transcribe wav = some transcript → steps.format transcript = none →
      pyStrip transcript ≠ "" →
      (runPipeline steps sourcePath).result = .ok (pyStrip transcript) ∧
        pyStrip transcript ≠ "") ∧
    (deliveredText (.ok response) =
      (if pyStrip response = "" then emptyVoiceReply else pyStrip response)) ∧
    deliveredText (.ok response) ≠ "" := by
  refine ⟨?_, rfl, ?_⟩
  · intro h1 h2 h3 h4 h5
    refine ⟨?_, h5⟩
    simp [runPipeline, h1, h2, h3, h4]
  · rw [deliveredText]
    by_cases h : pyStrip response = ""
    · rw [if_pos h]
      decide
    · rw [if_neg h]
      exact h

/-- C3 witness: the amended theorem applied to a concrete failing formatter
and a concrete response. -/
theorem C3_witness :
    ((runPipeline
      { convert := fun _ => some ["tmp", "a.wav"],
        validate := fun _ => true,
        transcribe := fun _ => some "  raw transcript  ",
        format := fun _ => none }
      ["tmp", "a.ogg"]).result = .ok (pyStrip "  raw transcript  ") ∧
      pyStrip "  raw transcript  " ≠ "") ∧
    deliveredText (.ok "x") ≠ "" :=
  ⟨(C3_empty_result_delivery
      { convert := fun _ => some ["tmp", "a.wav"],
        validate := fun _ => true,
        transcribe := fun _ => some "  raw transcript  ",
        format := fun _ => none }
      ["tmp", "a.ogg"] ["tmp", "a.wav"] "  raw transcript  " "x").1
      rfl rfl rfl rfl (by decide),
   (C3_empty_result_delivery
      { convert := fun _ => some ["tmp", "a.wav"],
        validate := fun _ => true,
        transcribe := fun _ => some "  raw transcript  ",
        format := fun _ => none }
      ["tmp", "a.ogg"] ["tmp", "a.wav"] "  raw transcript  " "x").2.2⟩

/-- C4: when convert, validate and transcribe succeed and the formatter
fails, `_run_pipeline` returns the raw transcript trimmed of surrounding
whitespace, and no run of `_run_pipeline` ever raises `FormattingError` to
its caller. -/
theorem C4_formatter_fallback (steps : Steps) (sourcePath wav : FsPath) (transcript : String)
    (hc : steps.convert sourcePath = some wav)
    (hv : steps.validate wav = true)
    (ht : steps.transcribe wav = some transcript)
    (hf : steps.format transcript = none) :
    (runPipeline steps sourcePath).result = .ok (pyStrip transcript) ∧
    ∀ (steps2 : Steps) (p : FsPath),
      (runPipeline steps2 p).result ≠ .error .formattingError := by
  constructor
  · simp [runPipeline, hc, hv, ht, hf]
  · intro steps2 p
    simp only [runPipeline]
    cases h1 : steps2.convert p with
    | none => simp
    | some w =>
      cases h2 : steps2.validate w with
      | false => simp [h2]
      | true =>
        cases h3 : steps2.transcribe w with
        | none => simp [h2, h3]
        | some t =>
          cases h4 : steps2.format t with
          | none => simp [h2, h3, h4]
          | some ft => simp [h2, h3, h4]

/-- C4 witness: the fallback theorem applied to a concrete failing
formatter. -/
theorem C4_witness :
    (runPipeline
      { convert := fun _ => some ["tmp", "b.wav"],
        validate := fun _ => true,
        transcribe := fun _ => some "raw text",
        format := fun _ => none }
      ["tmp", "b.ogg"]).result = .ok (pyStrip "raw text") :=
  (C4_formatter_fallback
    { convert := fun _ => some ["tmp", "b.wav"],
      validate := fun _ => true,
      transcribe := fun _ => some "raw text",
      format := fun _ => none }
    ["tmp", "b.ogg"] ["tmp", "b.wav"] "raw text" rfl rfl rfl rfl).1

/-- C5: the `finally` block of `_run_pipeline` releases the converted wav
artifact exactly once on every exit path on which convert produced one
(validation failure, transcription failure, formatter fallback, success),
and attempts no release when convert failed. -/
theorem C5_cleanup_exactly_once (steps : Steps) (sourcePath : FsPath) :
    (steps.convert sourcePath = none → (runPipeline steps sourcePath).cleaned = []) ∧
    ∀ wav, steps.convert sourcePath = some wav →
      (runPipeline steps sourcePath).cleaned = [wav] := by
  constructor
  · intro h
    simp [runPipeline, h]
  · intro wav h
    simp only [runPipeline, h]
    cases h2 : steps.validate wav with
    | false => simp [h2]
    | true =>
      cases h3 : steps.transcribe wav with
      | none => simp [h2, h3]
      | some t =>
        cases h4 : steps.format t with
        | none => simp [h2, h3, h4]
        | some ft => simp [h2, h3, h4]

/-- C5 witness: cleanup behaviour at a failing converter and at a succeeding
converter with failing validator. -/
theorem C5_witness :
    (runPipeline
      { convert := fun _ => none, validate := fun _ => true,
        transcribe := fun _ => some "t", format := fun _ => none }
      ["tmp", "c.ogg"]).cleaned = [] ∧
    (runPipeline
      { convert := fun _ => some ["tmp", "c.wav"], validate := fun _ => false,
        transcribe := fun _ => some "t", format := fun _ => none }
      ["tmp", "c.ogg"]).cleaned = [["tmp", "c.wav"]] :=
  ⟨(C5_cleanup_exactly_once
      { convert := fun _ => none, validate := fun _ => true,
        transcribe := fun _ => some "t", format := fun _ => none }
      ["tmp", "c.ogg"]).1 rfl,
   (C5_cleanup_exactly_once
      { convert := fun _ => some ["tmp", "c.wav"], validate := fun _ => false,
        transcribe := fun _ => some "t", format := fun _ => none }
      ["tmp", "c.ogg"]).2 ["tmp", "c.wav"] rfl⟩

/-- C6: a convert or validate step failure reaches the user as the fixed
"audio cannot be processed" reply, a transcribe failure or any unclassified
exception as the fixed "processing failed, try again later" reply, and the
two canned replies are distinct, so no fatal class ever yields the other
class's message. -/
theorem C6_fatal_class_messages (steps : Steps) (sourcePath wav : FsPath) :
    (steps.convert sourcePath = none →
      deliveredText (runPipeline steps sourcePath).result = audioCannotProcessReply) ∧
    (steps.convert sourcePath = some wav → steps.validate wav = false →
      deliveredText (runPipeline steps sourcePath).result = audioCannotProcessReply) ∧
    (steps.convert sourcePath = some wav → steps.validate wav = true →
      steps.transcribe wav = none →
      deliveredText (runPipeline steps sourcePath).result = pipelineErrorReply) ∧
    deliveredText (.error .otherException) = pipelineErrorReply ∧
    deliveredText (.error .voicePipelineError) = pipelineErrorReply ∧
    audioCannotProcessReply ≠ pipelineErrorReply := by
  refine ⟨?_, ?_, ?_, rfl, rfl, by decide⟩
  · intro h
    simp [runPipeline, h, deliveredText, errorReplyText]
  · intro h1 h2
    simp [runPipeline, h1, h2, deliveredText, errorReplyText]
  · intro h1 h2 h3
    simp [runPipeline, h1, h2, h3, deliveredText, errorReplyText]

/-- C6 witness: the message mapping at a failing converter and a failing
transcriber. -/
theorem C6_witness :
    deliveredText (runPipeline
      { convert := fun _ => none, validate := fun _ => true,
        transcribe := fun _ => some "t", format := fun _ => none }
      ["tmp", "d.ogg"]).result = audioCannotProcessReply ∧
    deliveredText (runPipeline
      { convert := fun _ => some ["tmp", "d.wav"], validate := fun _ => true,
        transcribe := fun _ => none, format := fun _ => none }
      ["tmp", "d.ogg"]).result = pipelineErrorReply :=
  ⟨(C6_fatal_class_messages
      { convert := fun _ => none, validate := fun _ => true,
        transcribe := fun _ => some "t", format := fun _ => none }
      ["tmp", "d.ogg"] ["tmp", "d.wav"]).1 rfl,
   (C6_fatal_class_messages
      { convert := fun _ => some ["tmp", "d.wav"], validate := fun _ => true,
        transcribe := fun _ => none, format := fun _ => none }
      ["tmp", "d.ogg"] ["tmp", "d.wav"]).2.2.1 rfl rfl rfl⟩

/-- C7: a worker loop never terminates because a job raised: a trace made
only of executed jobs (completing or raising) is consumed in full with the
worker still looping, and a terminated loop always owes its termination to a
delivered cancellation or to the shutdown flag being observed. -/
theorem C7_worker_survives_job_exceptions (trace : List WorkerEvent) :
    ((∀ ev ∈ trace, ev = .jobCompletes ∨ ev = .jobRaises) →
      workerLoop trace = (trace.length, none)) ∧
    ((workerLoop trace).2 = some .cancelled → .cancelledDelivered ∈ trace) ∧
    ((workerLoop trace).2 = some .shutdownObserved → .shutdownSet ∈ trace) := by
  induction trace with
  | nil =>
    refine ⟨fun _ => rfl, ?_, ?_⟩ <;> intro h <;> cases h
  | cons ev rest ih =>
    cases ev with
    | shutdownSet =>
      refine ⟨?_, ?_, ?_⟩
      · intro h
        rcases h .shutdownSet (List.mem_cons_self _ _) with h1 | h1 <;> cases h1
      · intro h
        rw [workerLoop] at h
        cases h
      · intro _
        exact List.mem_cons_self _ _
    | cancelledDelivered =>
      refine ⟨?_, ?_, ?_⟩
      · intro h
        rcases h .cancelledDelivered (List.mem_cons_self _ _) with h1 | h1 <;> cases h1
      · intro _
        exact List.mem_cons_self _ _
      · intro h
        rw [workerLoop] at h
        cases h
    | jobCompletes =>
      refine ⟨?_, ?_, ?_⟩
      · intro h
        rw [workerLoop, (ih.1 fun ev hm => h ev (List.mem_cons_of_mem _ hm))]
        rfl
      · intro h
        rw [workerLoop] at h
        exact List.mem_cons_of_mem _ (ih.2.1 h)
      · intro h
        rw [workerLoop] at h
        exact List.mem_cons_of_mem _ (ih.2.2 h)
    | jobRaises =>
      refine ⟨?_, ?_, ?_⟩
      · intro h
        rw [workerLoop, (ih.1 fun ev hm => h ev (List.mem_cons_of_mem _ hm))]
        rfl
      · intro h
        rw [workerLoop] at h
        exact List.mem_cons_of_mem _ (ih.2.1 h)
      · intro h
        rw [workerLoop] at h
        exact List.mem_cons_of_mem _ (ih.2.2 h)

/-- C7 witness: a raising job followed by a completing job leaves the worker
alive having executed both; a delivered cancellation is traced back to the
cancellation event. -/
theorem C7_witness :
    workerLoop [.jobRaises, .jobCompletes] = (2, none) ∧
    WorkerEvent.cancelledDelivered ∈ [WorkerEvent.jobRaises, .cancelledDelivered] :=
  ⟨(C7_worker_survives_job_exceptions [.jobRaises, .jobCompletes]).1
      (by intro ev hm; cases hm with
          | head => exact .inr rfl
          | tail _ hm2 => cases hm2 with
            | head => exact .inl rfl
            | tail _ hm3 => cases hm3),
   (C7_worker_survives_job_exceptions [.jobRaises, .cancelledDelivered]).2.1 rfl⟩

/-- C9: the task queue is FIFO with no re-enqueueing: over any trace of
enqueues and worker dequeues starting from the empty queue, the accepted
items decompose as the started items followed by the backlog, so items are
started exactly in enqueue order (the started list is a prefix of the
enqueued list) and no item is started more often than it was enqueued. -/
theorem C9_fifo_order {α : Type} [DecidableEq α] (ops : List (QueueOp α)) :
    (runQueue ops ⟨[], [], []⟩).enqueued =
      (runQueue ops ⟨[], [], []⟩).started ++ (runQueue ops ⟨[], [], []⟩).backlog ∧
    List.IsPrefix (runQueue ops ⟨[], [], []⟩).started (runQueue ops ⟨[], [], []⟩).enqueued ∧
    ∀ a : α, (runQueue ops ⟨[], [], []⟩).started.count a ≤
      (runQueue ops ⟨[], [], []⟩).enqueued.count a := by
  have h := runQueue_decomposition ops (⟨[], [], []⟩ : QueueTrace α) rfl
  refine ⟨h, ⟨(runQueue ops ⟨[], [], []⟩).backlog, h.symm⟩, ?_⟩
  intro a
  rw [h, List.count_append]
  exact Nat.le_add_right _ _

/-- C9 witness: a concrete trace with two enqueues, a dequeue, a third
enqueue and another dequeue starts the jobs in enqueue order. -/
theorem C9_witness :
    (runQueue [QueueOp.enq 1, .enq 2, .deq, .enq 3, .deq] ⟨[], [], []⟩).enqueued =
      (runQueue [QueueOp.enq 1, .enq 2, .deq, .enq 3, .deq] ⟨[], [], []⟩).started ++
      (runQueue [QueueOp.enq 1, .enq 2, .deq, .enq 3, .deq] ⟨[], [], []⟩).backlog ∧
    (runQueue [QueueOp.enq 1, .enq 2, .deq, .enq 3, .deq]
      (⟨[], [], []⟩ : QueueTrace Nat)).started = [1, 2] :=
  ⟨(C9_fifo_order [QueueOp.enq 1, .enq 2, .deq, .enq 3, .deq]).1, rfl⟩

/-- C10: `process_voice` validates its argument before creating the result
future or enqueueing the runner: a non-existent (resolved) path raises
`FileNotFoundError` and a path outside the resolved temporary directory
raises `AudioValidationError`, in both cases leaving the submission state —
queued runners and created futures — untouched. -/
theorem C10_reject_before_enqueue (fs : Fs) (tmpDir audioPath : FsPath) (st : SubmitState) :
    (fs.pathExists (fs.resolve audioPath) = false →
      processVoiceSubmit fs tmpDir st audioPath = (.error .fileNotFoundError, st)) ∧
    (fs.pathExists (fs.resolve audioPath) = true →
      (fs.resolve tmpDir).isPrefixOf (fs.resolve audioPath) = false →
      processVoiceSubmit fs tmpDir st audioPath = (.error .audioValidationError, st)) := by
  constructor
  · intro h
    simp [processVoiceSubmit, ensureWithinTmpDir, h]
  · intro h1 h2
    simp [processVoiceSubmit, ensureWithinTmpDir, h1, h2]

/-- C10 witness: a missing file and an existing file outside the temporary
directory are both rejected with the submission state unchanged. -/
theorem C10_witness :
    processVoiceSubmit ⟨id, fun _ => false⟩ ["tmp"] ⟨[], 0⟩ ["tmp", "a.ogg"] =
      (.error .fileNotFoundError, ⟨[], 0⟩) ∧
    processVoiceSubmit ⟨id, fun _ => true⟩ ["tmp"] ⟨[], 0⟩ ["elsewhere", "a.ogg"] =
      (.error .audioValidationError, ⟨[], 0⟩) :=
  ⟨(C10_reject_before_enqueue ⟨id, fun _ => false⟩ ["tmp"] ["tmp", "a.ogg"] ⟨[], 0⟩).1 rfl,
   (C10_reject_before_enqueue ⟨id, fun _ => true⟩ ["tmp"] ["elsewhere", "a.ogg"] ⟨[], 0⟩).2
      rfl (by decide)⟩

/-- C1 counterexample: the sweep's comprehension tests only the age, never
the status: a `Processing` (`in_progress = true`) entry whose age exceeds
the TTL is removed by `_cleanup_expired_requests_locked`, refuting "no entry
whose status is Processing is ever removed by the sweep". -/
theorem C1_counterexample :
    lookupKey sampleProcessingEntries "1:2" = some ⟨0, sampleProcessingReq⟩ ∧
    sampleProcessingReq.in_progress = true ∧
    isExpired 1000 sampleProcessingReq = true ∧
    lookupKey (cleanupEntries 1000 sampleProcessingEntries) "1:2" = none := by
  refine ⟨by decide, rfl, by decide, by decide⟩

/-- C1 (amended): `_cleanup_expired_requests_locked` removes exactly the
entries whose age strictly exceeds the TTL, regardless of status: an entry
survives the sweep iff it was present and unexpired — so every Pending entry
older than the TTL is gone, but an in-flight Processing entry older than the
TTL is removed just the same. -/
theorem C1_sweep_removes_by_age_only {l : Entries} (now : Int) (key : String)
    (e : StoreEntry) (hnd : (keysOf l).Nodup) :
    (lookupKey (cleanupEntries now l) key = some e ↔
      lookupKey l key = some e ∧ isExpired now e.req = false) ∧
    (lookupKey l key = some e → isExpired now e.req = true →
      lookupKey (cleanupEntries now l) key = none) := by
  refine ⟨lookupKey_cleanup now key e hnd, ?_⟩
  intro hE hexp
  cases hC : lookupKey (cleanupEntries now l) key with
  | none => rfl
  | some e2 =>
    rcases (lookupKey_cleanup now key e2 hnd).mp hC with ⟨hE2, hexp2⟩
    rw [hE] at hE2
    injection hE2 with hE2
    rw [← hE2, hexp] at hexp2
    cases hexp2

/-- C1 witness: the amended sweep characterisation applied to the concrete
expired Processing store. -/
theorem C1_witness :
    lookupKey (cleanupEntries 1000 sampleProcessingEntries) "1:2" = none :=
  (@C1_sweep_removes_by_age_only sampleProcessingEntries 1000 "1:2"
    ⟨0, sampleProcessingReq⟩ (by decide)).2 (by decide) (by decide)

/-- C2: the locked section of `handle_summary_callback` is an atomic
test-and-set: it reports `started` iff after the sweep the key holds a
`Pending` entry, in which case that entry is marked `Processing` in place;
otherwise (absent or already `Processing`) it is a no-op that reports
failure, leaving the store exactly as the sweep left it.  Over any sequence
of callers serialized by the lock at most one wins, and exactly one wins
when the key holds an unexpired `Pending` entry at the first call. -/
theorem C2_mark_processing_single_flight (now : Int) (l : Entries) (key : String)
    (hnd : (keysOf l).Nodup) :
    ((markProcessing now l key).1 = .started ↔
      ∃ e, lookupKey (cleanupEntries now l) key = some e ∧ e.req.in_progress = false) ∧
    ((markProcessing now l key).1 = .started →
      ∃ e, lookupKey (cleanupEntries now l) key = some e ∧ e.req.in_progress = false ∧
        lookupKey (markProcessing now l key).2 key = some (markTrue e) ∧
        (markTrue e).req.in_progress = true) ∧
    ((markProcessing now l key).1 ≠ .started →
      (markProcessing now l key).2 = cleanupEntries now l) ∧
    (∀ nows : List Int, countStarted (runMarkCalls nows key l).1 ≤ 1) ∧
    (∀ (rest : List Int) (e : StoreEntry),
      lookupKey l key = some e → e.req.in_progress = false →
      isExpired now e.req = false →
      countStarted (runMarkCalls (now :: rest) key l).1 = 1) := by
  refine ⟨markProcessing_started_iff now l key, ?_,
    markProcessing_state_not_started now l key,
    fun nows => countStarted_le_one nows key hnd,
    fun rest e hE hip hex => countStarted_eq_one now rest key hnd e hE hip hex⟩
  intro h
  rcases (markProcessing_started_iff now l key).mp h with ⟨e, hE, hip⟩
  refine ⟨e, hE, hip, ?_, rfl⟩
  rw [markProcessing_state_started now l key h, lookupKey_setInProgress_self, hE]
  rfl

/-- C2 witness: one caller on the sample Pending store wins the test-and-set,
via the single-flight theorem at concrete inputs. -/
theorem C2_witness :
    countStarted (runMarkCalls [10] "1:2" samplePendingEntries).1 = 1 :=
  (C2_mark_processing_single_flight 10 samplePendingEntries "1:2" (by decide)).2.2.2.2
    [] ⟨0, samplePendingReq⟩ (by decide) (by decide) (by decide)

/-- C8: across any sequence of locked store operations (add, confirm (mark),
complete (pop), expire (sweep)) from a well-formed store, the store stays
well-formed — in particular at most one entry exists per key — and an entry
(identified by the object identity of its dataclass instance) that is
`Processing` never returns to `Pending`: afterwards it is either gone from
the store (removal being the only exit from `Processing`) or still present
unchanged. -/
theorem C8_store_invariants (ops : List StoreOp) (s : StoreState) (hInv : StoreInv s) :
    StoreInv (applyOps ops s) ∧
    ∀ u e, entryWithUid s.entries u = some e → e.req.in_progress = true →
      entryWithUid (applyOps ops s).entries u = none ∨
        entryWithUid (applyOps ops s).entries u = some e :=
  ⟨storeInv_applyOps ops s hInv,
   fun u e hE hip => processing_entry_applyOps ops s hInv hE hip⟩

/-- C8 witness: the invariants applied to the sample Processing store under a
concrete operation sequence (an expiring sweep followed by an add). -/
theorem C8_witness :
    StoreInv (applyOps [StoreOp.sweep 1000, StoreOp.add 3 4 "g" none none "audio" 1000]
      sampleProcessingStore) ∧
    (entryWithUid (applyOps [StoreOp.sweep 1000,
        StoreOp.add 3 4 "g" none none "audio" 1000] sampleProcessingStore).entries 0 = none ∨
      entryWithUid (applyOps [StoreOp.sweep 1000,
        StoreOp.add 3 4 "g" none none "audio" 1000] sampleProcessingStore).entries 0 =
        some ⟨0, sampleProcessingReq⟩) :=
  ⟨(C8_store_invariants [StoreOp.sweep 1000, StoreOp.add 3 4 "g" none none "audio" 1000]
      sampleProcessingStore ⟨by decide, by decide, by decide⟩).1,
   (C8_store_invariants [StoreOp.sweep 1000, StoreOp.add 3 4 "g" none none "audio" 1000]
      sampleProcessingStore ⟨by decide, by decide, by decide⟩).2 0
      ⟨0, sampleProcessingReq⟩ (by decide) (by decide)⟩

end CleanSpeechBot
